import Mathlib

/-!
Verification development for the Diffraxia frame-decoding and
radial-integration pipeline (`diffraxia/eiger.py`, `diffraxia/integrate.py`).

Machine integers are modelled as `Nat`/`Int`, Python `bytes` elements as
`Fin 256`, and Python floats as exact rationals extended with the three
non-finite IEEE values (`nan`, `inf`, `-inf`); fallible code returns
`Except`.  Error values carry, as structured fields, the quantities the
source interpolates into its error message strings.
-/

namespace Diffraxia

/-- One element of a Python `bytes` buffer. -/
abbrev Byte := Fin 256

/-- A NumPy ndarray: its shape tuple together with its element buffer in
row-major (C) order.  `ravel()` returns exactly `data`. -/
structure NDArray (α : Type) where
  shape : List ℤ
  data : List α
deriving DecidableEq

/-- The child-name / node structure of an HDF5 object as seen by `h5py`:
a group with named children, or a dataset (whose value is irrelevant to
payload-group selection and is elided). -/
inductive HNode where
  | group (children : List (String × HNode))
  | dataset

/-- Child names of a node (`group.keys()`); datasets have none. -/
def HNode.keys : HNode → List String
  | .group cs => cs.map Prod.fst
  | .dataset => []

/-- Child lookup, `group[name]`; `none` when absent (membership test
`name in group` is `(child n name).isSome`). -/
def HNode.child : HNode → String → Option HNode
  | .group cs, name => cs.lookup name
  | .dataset, _ => none

/-- `isinstance(x, h5py.Group)`. -/
def HNode.isGroup : HNode → Bool
  | .group _ => true
  | .dataset => false

/-- `_REQUIRED_KEYS` from `eiger.py`. -/
def REQUIRED_KEYS : List String :=
  ["data", "shape", "dtype", "elem_size", "compression_type"]

/-- `_has_required_keys`: the node contains all required metadata fields. -/
def has_required_keys (n : HNode) : Bool :=
  REQUIRED_KEYS.all (fun k => (n.child k).isSome)

/-- Structured renditions of the `RuntimeError`s raised in `eiger.py`;
fields are the values interpolated into the corresponding message. -/
inductive EigerError where
  | layoutError (availableKeys : List String)
  | metadataMismatch (elemSize : ℤ) (expected : ℤ) (dtypeLabel : String)
  | sizeMismatch (bufLen : ℕ) (expected : ℤ) (shape : List ℤ) (dtypeName : String)
deriving DecidableEq

/-- `_select_payload_group`: prefer a `"difference"` child that is a group
holding all required keys; else the frame group itself if it holds them;
else fail listing the available child names. -/
def select_payload_group (frame_group : HNode) : Except EigerError HNode :=
  match frame_group.child "difference" with
  | some diff =>
      if diff.isGroup && has_required_keys diff then .ok diff
      else if has_required_keys frame_group then .ok frame_group
      else .error (.layoutError frame_group.keys)
  | none =>
      if has_required_keys frame_group then .ok frame_group
      else .error (.layoutError frame_group.keys)

/-- On-disk value of the `shape` dataset: either a 0-dimensional
(scalar-like) value or a 1-dimensional integer array. -/
inductive ShapeValue where
  | scalar (n : ℤ)
  | array (ns : List ℤ)
deriving DecidableEq

/-- `_read_shape`: `np.atleast_1d` on the stored value, then a tuple of
Python ints. -/
def read_shape : ShapeValue → List ℤ
  | .scalar n => [n]
  | .array ns => ns

/-- The five datasets of a payload group, after the scalar reads performed
by `get_frame_array` (`_read_scalar` plus `int(...)` on `elem_size`). -/
structure Payload where
  raw_data : List Byte
  shape : ShapeValue
  dtype_meta : String
  elem_size : ℤ
  compression_type : String

/-- The external `dectris.compression.decompress` service:
(compressed bytes, compression type, element size) to a flat byte buffer. -/
def Decompressor : Type :=
  List Byte → String → ℤ → List Byte

/-- One little-endian unsigned 32-bit value from four bytes, as read by
`np.frombuffer(buf, dtype="uint32")`. -/
def u32OfBytes (b0 b1 b2 b3 : Byte) : ℕ :=
  b0.val + 2 ^ 8 * b1.val + 2 ^ 16 * b2.val + 2 ^ 24 * b3.val

/-- `np.frombuffer(buf, dtype=np.uint32)`: consecutive 4-byte groups as
unsigned 32-bit values. -/
def bytesToU32 : List Byte → List ℕ
  | b0 :: b1 :: b2 :: b3 :: rest => u32OfBytes b0 b1 b2 b3 :: bytesToU32 rest
  | _ => []

/-- `get_frame_array`, from the payload reads onward: check
`elem_size` against the fixed uint32 width, decompress, check the
decompressed length against `prod(shape) * 4`, then reinterpret the buffer
as uint32 values reshaped to `shape` (row-major). -/
def get_frame_array (decomp : Decompressor) (payload : Payload) :
    Except EigerError (NDArray ℕ) :=
  let shape := read_shape payload.shape
  if payload.elem_size ≠ 4 then
    .error (.metadataMismatch payload.elem_size 4 payload.dtype_meta)
  else
    let buf := decomp payload.raw_data payload.compression_type payload.elem_size
    let expected_nbytes : ℤ := shape.prod * 4
    if (buf.length : ℤ) ≠ expected_nbytes then
      .error (.sizeMismatch buf.length expected_nbytes shape "uint32")
    else
      .ok ⟨shape, bytesToU32 buf⟩

/-- `np.iinfo(np.uint32).max`, the detector saturation sentinel. -/
def UINT32_MAX : ℕ := 2 ^ 32 - 1

/-- Elementwise branch of `np.where(img == sentinel, 0, img)`. -/
def scrubElem (x : ℕ) : ℕ :=
  if x = UINT32_MAX then 0 else x

/-- The sentinel scrub applied by `eiger_to_tiff` to each decoded frame. -/
def scrubSentinel (img : NDArray ℕ) : NDArray ℕ :=
  ⟨img.shape, img.data.map scrubElem⟩

/-- Python `int(...)` on the decimal-digit frame-key strings. -/
def strNum (s : String) : ℕ :=
  s.data.foldl (fun n c => 10 * n + (c.toNat - 48)) 0

/-- The comparison key used by `list_frame_keys`: numeric value order. -/
def keyLE (a b : String) : Prop :=
  strNum a ≤ strNum b

instance : DecidableRel keyLE :=
  fun a b => inferInstanceAs (Decidable (strNum a ≤ strNum b))

instance : IsTotal String keyLE :=
  ⟨fun a b => Nat.le_total (strNum a) (strNum b)⟩

instance : IsTrans String keyLE :=
  ⟨fun _ _ _ h1 h2 => Nat.le_trans h1 h2⟩

/-- `list_frame_keys`: `sorted(group.keys(), key=lambda k: int(k))`
(a stable sort by numeric value). -/
def list_frame_keys (keys : List String) : List String :=
  List.insertionSort keyLE keys

/-- The keys `eiger_to_tiff` iterates over: the numerically sorted keys,
truncated to the first `nframes` when a limit is given. -/
def framesToProcess (keys : List String) (nframes : Option ℕ) : List String :=
  match nframes with
  | some n => (list_frame_keys keys).take n
  | none => list_frame_keys keys

/-- A Python float: an exact finite value or one of the non-finite IEEE
values. -/
inductive PyFloat where
  | nan
  | inf
  | ninf
  | val (q : ℚ)
deriving DecidableEq

/-- `np.isfinite`. -/
def PyFloat.isFinite : PyFloat → Bool
  | .val _ => true
  | _ => false

/-- `np.linspace(tth_min, tth_max, nbins + 1)[i]`: the `i`-th bin edge. -/
def linspaceEdge (tth_min tth_max : ℚ) (nbins : ℕ) (i : ℕ) : ℚ :=
  tth_min + i * (tth_max - tth_min) / nbins

/-- Bin assignment of `np.histogram` over the uniform edges
`linspaceEdge tth_min tth_max nbins`: values outside
`[tth_min, tth_max]` fall in no bin, the right edge of the last bin is
inclusive, and otherwise the bin index is the floor of the rescaled
offset (equivalent to the half-open interval search on the edges; see
`binOfAngle_eq_some_iff`). -/
def binOfAngle (tth_min tth_max : ℚ) (nbins : ℕ) (q : ℚ) : Option ℕ :=
  if tth_min ≤ q ∧ q ≤ tth_max then
    if q = tth_max then some (nbins - 1)
    else some (⌊(q - tth_min) * nbins / (tth_max - tth_min)⌋).toNat
  else none

/-- The valid (finite-angle) pixel pairs kept by the `np.isfinite` mask in
`radial_integrate`, as (intensity, angle) pairs aligned by flattened
index. -/
def finitePairs (pixels : List (ℚ × PyFloat)) : List (ℚ × ℚ) :=
  pixels.filterMap (fun p =>
    match p.2 with
    | .val q => some (p.1, q)
    | _ => none)

/-- `radial_integrate`: ravel image and angle map, drop non-finite
angles, histogram the intensities over `nbins` uniform bins on
`[tth_min, tth_max]`, and return (bin centers, per-bin summed
intensity). -/
def radial_integrate (img : NDArray ℚ) (tth_map_deg : NDArray PyFloat)
    (tth_min tth_max : ℚ) (nbins : ℕ) : List ℚ × List ℚ :=
  let pairs := finitePairs (img.data.zip tth_map_deg.data)
  let tth_centers := (List.range nbins).map (fun i =>
    (linspaceEdge tth_min tth_max nbins i + linspaceEdge tth_min tth_max nbins (i + 1)) / 2)
  let sum_I := (List.range nbins).map (fun i =>
    ((pairs.filter (fun p => decide (binOfAngle tth_min tth_max nbins p.2 = some i))).map
      Prod.fst).sum)
  (tth_centers, sum_I)

/-! ## Sample inputs used by witnesses and counterexamples -/

/-- A synthetic payload subgroup holding the five required datasets. -/
def samplePayloadNode : HNode :=
  .group [("data", .dataset), ("shape", .dataset), ("dtype", .dataset),
    ("elem_size", .dataset), ("compression_type", .dataset)]

/-- A synthetic multi-channel frame group. -/
def sampleFrameNode : HNode :=
  .group [("difference", samplePayloadNode), ("threshold_1", .dataset)]

/-- A decompressor stub returning the empty buffer. -/
def emptyDecomp : Decompressor := fun _ _ _ => []

/-- A decompressor stub returning four zero bytes. -/
def fourByteDecomp : Decompressor := fun _ _ _ => [0, 0, 0, 0]

/-- A payload declaring a 2-byte element size. -/
def samplePayloadU16 : Payload :=
  ⟨[], .array [2, 2], "uint16", 2, "bslz4"⟩

/-- A well-formed payload with shape (1, 1) and element size 4. -/
def samplePayload11 : Payload :=
  ⟨[], .array [1, 1], "uint32", 4, "bslz4"⟩

/-- A payload whose on-disk shape is scalar-like (0-dimensional). -/
def samplePayloadScalarShape : Payload :=
  ⟨[], .scalar 1, "uint32", 4, "bslz4"⟩

/-! ## C1: sentinel scrubbing -/

/-- C1: in a decoded frame, every element equal to the sentinel 2^32 - 1 is
replaced with 0, every other element passes through unchanged, and
re-scrubbing an already-scrubbed frame changes nothing. -/
theorem scrub_sentinel_spec (img : NDArray ℕ) :
    (∀ (i x : ℕ), img.data[i]? = some x →
      (scrubSentinel img).data[i]? =
        some (if x = 2 ^ 32 - 1 then 0 else x)) ∧
    scrubSentinel (scrubSentinel img) = scrubSentinel img := by
  constructor
  · intro i x h
    simp [scrubSentinel, List.getElem?_map, h, scrubElem, UINT32_MAX]
  · have hf : ∀ x : ℕ, scrubElem (scrubElem x) = scrubElem x := by
      intro x
      by_cases h : x = UINT32_MAX
      · simp [scrubElem, h, UINT32_MAX]
      · simp [scrubElem, h]
    simp only [scrubSentinel, List.map_map]
    congr 1
    exact List.map_congr_left (fun x _ => hf x)

/-- Witness for C1 at a concrete two-pixel frame. -/
theorem scrub_sentinel_spec_witness :
    (scrubSentinel ⟨[1, 2], [4294967295, 7]⟩).data[0]? = some 0 ∧
    (scrubSentinel ⟨[1, 2], [4294967295, 7]⟩).data[1]? = some 7 := by
  have h := scrub_sentinel_spec ⟨[1, 2], [4294967295, 7]⟩
  constructor
  · rw [h.1 0 4294967295 rfl]
    norm_num
  · rw [h.1 1 7 rfl]
    norm_num

/-! ## C2: payload-group selection -/

/-- C2: selection returns the "difference" child exactly when it exists, is
itself a group, and holds all five required fields; otherwise it returns
the frame node exactly when that node holds the five fields directly;
otherwise it fails with an error listing the child names available at that
level. -/
theorem select_payload_group_spec (fg : HNode) :
    (∀ d, fg.child "difference" = some d → d.isGroup = true →
      has_required_keys d = true → select_payload_group fg = .ok d) ∧
    ((∀ d, fg.child "difference" = some d →
        d.isGroup = false ∨ has_required_keys d = false) →
      (has_required_keys fg = true → select_payload_group fg = .ok fg) ∧
      (has_required_keys fg = false →
        select_payload_group fg = .error (.layoutError fg.keys))) := by
  constructor
  · intro d hd hg hk
    simp [select_payload_group, hd, hg, hk]
  · intro hnot
    cases hc : fg.child "difference" with
    | none =>
        constructor <;> intro h <;> simp [select_payload_group, hc, h]
    | some d =>
        rcases hnot d hc with hg | hk
        · constructor <;> intro h <;> simp [select_payload_group, hc, hg, h]
        · constructor <;> intro h <;> simp [select_payload_group, hc, hk, h]

/-- Witness for C2: the multi-channel sample frame selects its
"difference" subgroup. -/
theorem select_payload_group_spec_witness :
    select_payload_group sampleFrameNode = .ok samplePayloadNode :=
  (select_payload_group_spec sampleFrameNode).1 samplePayloadNode rfl rfl rfl

/-! ## C3: element-size guard -/

/-- C3: a declared element size different from 4 makes decoding fail with
an error carrying the declared size, the expected size 4, and the
file-declared dtype label; no such payload is silently coerced. -/
theorem get_frame_array_elem_size_guard (decomp : Decompressor) (p : Payload)
    (h : p.elem_size ≠ 4) :
    get_frame_array decomp p =
      .error (.metadataMismatch p.elem_size 4 p.dtype_meta) := by
  simp [get_frame_array, h]

/-- Witness for C3 at a payload declaring 2-byte elements. -/
theorem get_frame_array_elem_size_guard_witness :
    get_frame_array emptyDecomp samplePayloadU16 =
      .error (.metadataMismatch 2 4 "uint16") :=
  get_frame_array_elem_size_guard emptyDecomp samplePayloadU16 (by decide)

/-! ## C4: decompressed-size guard -/

/-- C4: with element size 4 and shape (r, c), decoding fails exactly when
the decompressed buffer length differs from r * c * 4, and on failure the
error carries the observed length, the expected byte count, and the shape
and dtype used. -/
theorem get_frame_array_size_guard (decomp : Decompressor) (p : Payload)
    (r c : ℤ) (hsh : read_shape p.shape = [r, c]) (hr : 0 < r) (hc : 0 < c)
    (he : p.elem_size = 4) :
    ((∃ e, get_frame_array decomp p = .error e) ↔
      ((decomp p.raw_data p.compression_type 4).length : ℤ) ≠ r * c * 4) ∧
    (((decomp p.raw_data p.compression_type 4).length : ℤ) ≠ r * c * 4 →
      get_frame_array decomp p =
        .error (.sizeMismatch (decomp p.raw_data p.compression_type 4).length
          (r * c * 4) [r, c] "uint32")) := by
  have key : get_frame_array decomp p =
      if ((decomp p.raw_data p.compression_type 4).length : ℤ) ≠ r * c * 4 then
        .error (.sizeMismatch (decomp p.raw_data p.compression_type 4).length
          (r * c * 4) [r, c] "uint32")
      else .ok ⟨[r, c], bytesToU32 (decomp p.raw_data p.compression_type 4)⟩ := by
    unfold get_frame_array
    rw [hsh, he]
    norm_num [List.prod_cons, mul_assoc]
  rcases eq_or_ne ((decomp p.raw_data p.compression_type 4).length : ℤ)
      (r * c * 4) with hlen | hlen
  · rw [key, if_neg (by simp [hlen])]
    refine ⟨⟨fun ⟨e, hee⟩ => by simp at hee, fun hco => absurd hlen hco⟩, ?_⟩
    intro hco
    exact absurd hlen hco
  · rw [key, if_pos hlen]
    exact ⟨⟨fun _ => hlen, fun _ => ⟨_, rfl⟩⟩, fun _ => rfl⟩

/-- Witness for C4: a shape-(1,1) payload whose decompressed buffer is
empty fails with the size-mismatch error. -/
theorem get_frame_array_size_guard_witness :
    get_frame_array emptyDecomp samplePayload11 =
      .error (.sizeMismatch 0 4 [1, 1] "uint32") :=
  (get_frame_array_size_guard emptyDecomp samplePayload11 1 1 rfl (by decide)
    (by decide) (by decide)).2 (by decide)

/-! ## C5: shape reading and the decoded array -/

/-- Length of the uint32 reinterpretation: one element per 4 bytes. -/
theorem bytesToU32_length : ∀ l : List Byte, (bytesToU32 l).length = l.length / 4
  | [] => by simp [bytesToU32]
  | [_] => by simp [bytesToU32]
  | [_, _] => by simp [bytesToU32]
  | [_, _, _] => by simp [bytesToU32]
  | _ :: _ :: _ :: _ :: rest => by
      simp only [bytesToU32, List.length_cons, bytesToU32_length rest]
      omega

/-- Every reinterpreted element is an unsigned 32-bit value. -/
theorem bytesToU32_lt : ∀ l : List Byte, ∀ x ∈ bytesToU32 l, x < 2 ^ 32
  | [] => by simp [bytesToU32]
  | [_] => by simp [bytesToU32]
  | [_, _] => by simp [bytesToU32]
  | [_, _, _] => by simp [bytesToU32]
  | b0 :: b1 :: b2 :: b3 :: rest => by
      intro x hx
      simp only [bytesToU32, List.mem_cons] at hx
      rcases hx with h | h
      · subst h
        have h0 := b0.isLt
        have h1 := b1.isLt
        have h2 := b2.isLt
        have h3 := b3.isLt
        simp only [u32OfBytes]
        omega
      · exact bytesToU32_lt rest x h

/-- C5 counterexample: on a payload whose on-disk shape is scalar-like,
decoding succeeds, yet the shape is read as a 1-tuple (not a tuple of 2
positive integers) and the resulting array is 1-dimensional, not
2-dimensional. -/
theorem get_frame_array_scalar_shape_cex :
    get_frame_array fourByteDecomp samplePayloadScalarShape =
      .ok ⟨[1], [0]⟩ ∧
    (read_shape samplePayloadScalarShape.shape).length ≠ 2 ∧
    (⟨[1], [0]⟩ : NDArray ℕ).shape.length = 1 := by
  refine ⟨rfl, by decide, rfl⟩

/-- C5 amended: no arity or positivity validation is performed on the
shape; but whenever the on-disk shape reads as a pair (r, c) of positive
integers and decoding succeeds, the result is a 2-dimensional array with
shape (r, c) holding exactly r * c unsigned 32-bit values obtained by
reinterpreting the decompressed buffer in row-major order. -/
theorem get_frame_array_pair_shape (decomp : Decompressor) (p : Payload)
    (r c : ℤ) (a : NDArray ℕ)
    (hsh : read_shape p.shape = [r, c]) (hr : 0 < r) (hc : 0 < c)
    (hok : get_frame_array decomp p = .ok a) :
    a.shape = [r, c] ∧ a.shape.length = 2 ∧
    ((a.data.length : ℤ) = r * c) ∧
    a.data = bytesToU32 (decomp p.raw_data p.compression_type 4) ∧
    ∀ x ∈ a.data, x < 2 ^ 32 := by
  have he : p.elem_size = 4 := by
    by_contra hne
    simp [get_frame_array, hne] at hok
  unfold get_frame_array at hok
  rw [hsh, he] at hok
  rw [if_neg (by norm_num : ¬((4 : ℤ) ≠ 4))] at hok
  simp only [List.prod_cons, List.prod_nil, mul_one] at hok
  split at hok
  · simp at hok
  · rename_i hcond
    have hprod : ((decomp p.raw_data p.compression_type 4).length : ℤ) =
        r * c * 4 := by
      have hq := not_not.mp hcond
      simpa [List.prod_cons, mul_assoc] using hq
    injection hok with hok2
    subst hok2
    have hrc : (0 : ℤ) ≤ r * c := mul_nonneg hr.le hc.le
    have hm : (decomp p.raw_data p.compression_type 4).length =
        (r * c).toNat * 4 := by
      have : ((decomp p.raw_data p.compression_type 4).length : ℤ) =
          ((r * c).toNat : ℤ) * 4 := by
        rw [Int.toNat_of_nonneg hrc]
        exact hprod
      exact_mod_cast this
    refine ⟨rfl, rfl, ?_, rfl, bytesToU32_lt _⟩
    rw [bytesToU32_length, hm, Nat.mul_div_cancel _ (by norm_num : 0 < 4)]
    rw [Int.toNat_of_nonneg hrc]

/-- Witness for the amended C5 at a concrete shape-(1,1) payload. -/
theorem get_frame_array_pair_shape_witness :
    (⟨[1, 1], [0]⟩ : NDArray ℕ).shape = [1, 1] ∧
    (⟨[1, 1], [0]⟩ : NDArray ℕ).shape.length = 2 ∧
    (((⟨[1, 1], [0]⟩ : NDArray ℕ).data.length : ℤ) = 1 * 1) ∧
    (⟨[1, 1], [0]⟩ : NDArray ℕ).data =
      bytesToU32 (fourByteDecomp samplePayload11.raw_data
        samplePayload11.compression_type 4) ∧
    ∀ x ∈ (⟨[1, 1], [0]⟩ : NDArray ℕ).data, x < 2 ^ 32 :=
  get_frame_array_pair_shape fourByteDecomp samplePayload11 1 1 _ rfl
    (by decide) (by decide) rfl

/-! ## C6: numeric frame-key ordering -/

/-- C6: the batch converter processes frame keys in ascending order of
their numeric values (a permutation of the keys, sorted by `int(k)`), so
["10", "2", "1"] is processed as ["1", "2", "10"], and a frame limit keeps
exactly the first N keys of that numeric ordering. -/
theorem frame_key_order_spec :
    (∀ keys : List String,
      List.Sorted keyLE (list_frame_keys keys) ∧
      List.Perm (list_frame_keys keys) keys) ∧
    (∀ (keys : List String) (n : ℕ),
      framesToProcess keys (some n) = (list_frame_keys keys).take n) ∧
    list_frame_keys ["10", "2", "1"] = ["1", "2", "10"] := by
  refine ⟨fun keys => ⟨List.sorted_insertionSort keyLE keys,
    List.perm_insertionSort keyLE keys⟩, fun keys n => rfl, ?_⟩
  decide

/-! ## C7: histogram bin assignment -/

/-- Half-open-interval characterization of the histogram bin assignment:
an angle lands in bin `i` exactly when it lies in `[edge_i, edge_{i+1})`,
or when `i` is the last bin and the angle equals `tth_max`. -/
theorem binOfAngle_eq_some_iff (tmin tmax : ℚ) (n : ℕ) (hlt : tmin < tmax)
    (hn : 1 ≤ n) (q : ℚ) (i : ℕ) (hi : i < n) :
    binOfAngle tmin tmax n q = some i ↔
      ((linspaceEdge tmin tmax n i ≤ q ∧
        q < linspaceEdge tmin tmax n (i + 1)) ∨
        (i = n - 1 ∧ q = tmax)) := by
  have hw : (0 : ℚ) < tmax - tmin := by linarith
  have hnq : (0 : ℚ) < (n : ℚ) := by exact_mod_cast hn
  have hA : ∀ j : ℕ, linspaceEdge tmin tmax n j ≤ q ↔
      (j : ℚ) ≤ (q - tmin) * n / (tmax - tmin) := by
    intro j
    rw [le_div_iff hw, linspaceEdge]
    constructor
    · intro h
      have h2 : (j : ℚ) * (tmax - tmin) / n ≤ q - tmin := by linarith
      exact (div_le_iff hnq).mp h2
    · intro h
      have h2 : (j : ℚ) * (tmax - tmin) / n ≤ q - tmin := (div_le_iff hnq).mpr h
      linarith
  have hB : ∀ j : ℕ, q < linspaceEdge tmin tmax n j ↔
      (q - tmin) * n / (tmax - tmin) < (j : ℚ) := by
    intro j
    rw [div_lt_iff hw, linspaceEdge]
    constructor
    · intro h
      have h2 : q - tmin < (j : ℚ) * (tmax - tmin) / n := by linarith
      exact (lt_div_iff hnq).mp h2
    · intro h
      have h2 : q - tmin < (j : ℚ) * (tmax - tmin) / n := (lt_div_iff hnq).mpr h
      linarith
  have hEdgeGe : ∀ j : ℕ, tmin ≤ linspaceEdge tmin tmax n j := by
    intro j
    rw [linspaceEdge]
    have h0 : (0 : ℚ) ≤ (j : ℚ) * (tmax - tmin) / n :=
      div_nonneg (mul_nonneg (Nat.cast_nonneg j) hw.le) hnq.le
    linarith
  have hEdgeLeMax : ∀ j : ℕ, j ≤ n → linspaceEdge tmin tmax n j ≤ tmax := by
    intro j hj
    rw [linspaceEdge]
    have hjw : (j : ℚ) * (tmax - tmin) ≤ (tmax - tmin) * (n : ℚ) := by
      calc (j : ℚ) * (tmax - tmin) ≤ (n : ℚ) * (tmax - tmin) :=
            mul_le_mul_of_nonneg_right (by exact_mod_cast hj) hw.le
        _ = (tmax - tmin) * (n : ℚ) := mul_comm _ _
    have h2 : (j : ℚ) * (tmax - tmin) / n ≤ tmax - tmin := by
      rw [div_le_iff hnq]
      exact hjw
    linarith
  rw [binOfAngle]
  by_cases hin : tmin ≤ q ∧ q ≤ tmax
  · rw [if_pos hin]
    by_cases hqm : q = tmax
    · rw [if_pos hqm]
      simp only [Option.some_inj]
      constructor
      · intro h
        exact Or.inr ⟨h.symm, hqm⟩
      · rintro (⟨h1, h2⟩ | ⟨h1, h2⟩)
        · exfalso
          have hle := hEdgeLeMax (i + 1) (by omega)
          rw [hqm] at h2
          linarith
        · exact h1.symm
    · rw [if_neg hqm]
      have hq_lt : q < tmax := lt_of_le_of_ne hin.2 hqm
      have hx0 : (0 : ℚ) ≤ (q - tmin) * n / (tmax - tmin) :=
        div_nonneg (mul_nonneg (by linarith [hin.1]) hnq.le) hw.le
      have hfl0 : 0 ≤ ⌊(q - tmin) * (n : ℚ) / (tmax - tmin)⌋ :=
        Int.floor_nonneg.mpr hx0
      simp only [Option.some_inj]
      constructor
      · intro h
        left
        have hfloor : ⌊(q - tmin) * (n : ℚ) / (tmax - tmin)⌋ = (i : ℤ) := by
          omega
        obtain ⟨hxi, hxi1⟩ := Int.floor_eq_iff.mp hfloor
        push_cast at hxi hxi1
        refine ⟨(hA i).mpr hxi, (hB (i + 1)).mpr ?_⟩
        push_cast
        exact hxi1
      · rintro (⟨h1, h2⟩ | ⟨h1, h2⟩)
        · have hxi := (hA i).mp h1
          have hxi1 := (hB (i + 1)).mp h2
          have hfloor : ⌊(q - tmin) * (n : ℚ) / (tmax - tmin)⌋ = (i : ℤ) := by
            rw [Int.floor_eq_iff]
            push_cast
            push_cast at hxi1
            exact ⟨hxi, hxi1⟩
          omega
        · exact absurd h2 hqm
  · rw [if_neg hin]
    constructor
    · intro h
      exact Option.noConfusion h
    · rintro (⟨h1, h2⟩ | ⟨h1, h2⟩)
      · exfalso
        rcases not_and_or.mp hin with hq1 | hq2
        · push_neg at hq1
          have := hEdgeGe i
          linarith
        · push_neg at hq2
          have := hEdgeLeMax (i + 1) (by omega)
          linarith
      · exfalso
        rcases not_and_or.mp hin with hq1 | hq2
        · rw [h2] at hq1
          exact hq1 hlt.le
        · push_neg at hq2
          rw [h2] at hq2
          exact lt_irrefl tmax hq2

/-- C7: for every image and same-shape angle map, bin `i` of the
integration output sums exactly the intensities of the pixels whose angle
lies in `[edge_i, edge_{i+1})`, the last bin additionally collecting
angles exactly equal to `tth_max`; pixels with non-finite angles or
angles outside the range contribute to no bin, and the function returns
normally. -/
theorem radial_integrate_binning (img : NDArray ℚ) (tth : NDArray PyFloat)
    (hshape : img.shape = tth.shape) (tmin tmax : ℚ) (hlt : tmin < tmax)
    (n : ℕ) (hn : 1 ≤ n) (i : ℕ) (hi : i < n) :
    (radial_integrate img tth tmin tmax n).2[i]? =
      some ((((img.data.zip tth.data).filter (fun p =>
          match p.2 with
          | .val q =>
              decide ((linspaceEdge tmin tmax n i ≤ q ∧
                q < linspaceEdge tmin tmax n (i + 1)) ∨
                (i = n - 1 ∧ q = tmax))
          | _ => false)).map Prod.fst).sum) := by
  have key : ∀ l : List (ℚ × PyFloat),
      ((finitePairs l).filter (fun p =>
          decide (binOfAngle tmin tmax n p.2 = some i))).map Prod.fst =
      ((l.filter (fun p =>
          match p.2 with
          | .val q =>
              decide ((linspaceEdge tmin tmax n i ≤ q ∧
                q < linspaceEdge tmin tmax n (i + 1)) ∨
                (i = n - 1 ∧ q = tmax))
          | _ => false)).map Prod.fst) := by
    intro l
    induction l with
    | nil => rfl
    | cons hd tl ih =>
        rcases hd with ⟨wt, ang⟩
        cases ang with
        | val q =>
            simp only [finitePairs, List.filterMap_cons, List.filter_cons,
              decide_eq_true_eq] at ih ⊢
            by_cases hb : binOfAngle tmin tmax n q = some i
            · have hcond := (binOfAngle_eq_some_iff tmin tmax n hlt hn q i hi).mp hb
              rw [if_pos hb, if_pos hcond]
              simp only [List.map_cons]
              exact congrArg _ ih
            · have hcond : ¬((linspaceEdge tmin tmax n i ≤ q ∧
                  q < linspaceEdge tmin tmax n (i + 1)) ∨
                  (i = n - 1 ∧ q = tmax)) := fun hc =>
                hb ((binOfAngle_eq_some_iff tmin tmax n hlt hn q i hi).mpr hc)
              rw [if_neg hb, if_neg hcond]
              exact ih
        | nan =>
            simp only [finitePairs, List.filterMap_cons, List.filter_cons] at ih ⊢
            simpa using ih
        | inf =>
            simp only [finitePairs, List.filterMap_cons, List.filter_cons] at ih ⊢
            simpa using ih
        | ninf =>
            simp only [finitePairs, List.filterMap_cons, List.filter_cons] at ih ⊢
            simpa using ih
  have hrange : (List.range n)[i]? = some i := by
    simp [List.getElem?_range, hi]
  simp only [radial_integrate, List.getElem?_map, hrange, Option.map_some]
  exact congrArg some (congrArg List.sum (key (img.data.zip tth.data)))

/-- Witness for C7 at a one-pixel frame whose angle hits the first bin. -/
theorem radial_integrate_binning_witness :
    (radial_integrate ⟨[1, 1], [(3 : ℚ)]⟩ ⟨[1, 1], [PyFloat.val 0]⟩
      0 1 1).2[0]? = some 3 := by
  have h := radial_integrate_binning ⟨[1, 1], [(3 : ℚ)]⟩
    ⟨[1, 1], [PyFloat.val 0]⟩ rfl 0 1 (by norm_num) 1 (by norm_num) 0
    (by norm_num)
  rw [h]
  norm_num [linspaceEdge]

/-! ## C8: default bin edges and centers -/

/-- C8: with `tth_min = 0`, `tth_max = 20`, `nbins = 2000`, bin edge `i`
equals `i * 0.01` degrees for every `i` in [0, 2000], and every bin
center produced by `radial_integrate` equals its left edge plus 0.005. -/
theorem default_bin_edges (i : ℕ) (hi : i ≤ 2000) :
    linspaceEdge 0 20 2000 i = (i : ℚ) * (1 / 100) ∧
    (∀ (img : NDArray ℚ) (tth : NDArray PyFloat), i < 2000 →
      (radial_integrate img tth 0 20 2000).1[i]? =
        some (linspaceEdge 0 20 2000 i + 1 / 200)) := by
  constructor
  · rw [linspaceEdge]
    push_cast
    ring
  · intro img tth hi2
    have hrange : (List.range 2000)[i]? = some i := by
      simp [List.getElem?_range, hi2]
    simp only [radial_integrate, List.getElem?_map, hrange, Option.map_some,
      Option.map_some', linspaceEdge, Option.some_inj]
    push_cast
    ring

/-- Witness for C8 at bin 7 and an empty image. -/
theorem default_bin_edges_witness :
    linspaceEdge 0 20 2000 7 = (7 : ℚ) * (1 / 100) ∧
    (radial_integrate ⟨[0, 0], []⟩ ⟨[0, 0], []⟩ 0 20 2000).1[7]? =
      some (linspaceEdge 0 20 2000 7 + 1 / 200) := by
  have h := default_bin_edges 7 (by norm_num)
  exact ⟨h.1, h.2 ⟨[0, 0], []⟩ ⟨[0, 0], []⟩ (by norm_num)⟩

/-! ## C9: linearity over intensities -/

/-- Mapping the intensity component and then collecting the finite-angle
pairs is the same as collecting first and then mapping. -/
theorem finitePairs_map_left (f : ℚ → ℚ) :
    ∀ l : List (ℚ × PyFloat),
      finitePairs (l.map (Prod.map f id)) = (finitePairs l).map (Prod.map f id)
  | [] => rfl
  | (wt, ang) :: tl => by
      have ih := finitePairs_map_left f tl
      cases ang with
      | val q =>
          simp only [finitePairs, List.map_cons, Prod.map_mk, id_eq,
            List.filterMap_cons] at ih ⊢
          exact congrArg _ ih
      | nan =>
          simp only [finitePairs, List.map_cons, Prod.map_mk, id_eq,
            List.filterMap_cons] at ih ⊢
          exact ih
      | inf =>
          simp only [finitePairs, List.map_cons, Prod.map_mk, id_eq,
            List.filterMap_cons] at ih ⊢
          exact ih
      | ninf =>
          simp only [finitePairs, List.map_cons, Prod.map_mk, id_eq,
            List.filterMap_cons] at ih ⊢
          exact ih

/-- Doubling each first component doubles the sum of first components. -/
theorem sum_map_double (l : List (ℚ × ℚ)) :
    (l.map (fun p => 2 * p.1)).sum = 2 * (l.map Prod.fst).sum := by
  induction l with
  | nil => simp
  | cons a t ih =>
      simp only [List.map_cons, List.sum_cons, ih]
      ring

/-- C9: integrating the image with every pixel doubled yields exactly
double the summed intensity in every bin, with identical bin centers. -/
theorem radial_integrate_linear (img : NDArray ℚ) (tth : NDArray PyFloat)
    (tmin tmax : ℚ) (hlt : tmin < tmax) (n : ℕ) (hn : 1 ≤ n) :
    (radial_integrate ⟨img.shape, img.data.map (fun x => 2 * x)⟩
        tth tmin tmax n).1 =
      (radial_integrate img tth tmin tmax n).1 ∧
    (radial_integrate ⟨img.shape, img.data.map (fun x => 2 * x)⟩
        tth tmin tmax n).2 =
      (radial_integrate img tth tmin tmax n).2.map (fun s => 2 * s) := by
  constructor
  · rfl
  · simp only [radial_integrate, List.map_map]
    apply List.map_congr_left
    intro j hj
    show (((finitePairs ((img.data.map (fun x => 2 * x)).zip tth.data)).filter
        (fun p => decide (binOfAngle tmin tmax n p.2 = some j))).map
          Prod.fst).sum =
      2 * (((finitePairs (img.data.zip tth.data)).filter
        (fun p => decide (binOfAngle tmin tmax n p.2 = some j))).map
          Prod.fst).sum
    rw [List.zip_map_left, finitePairs_map_left, List.filter_map]
    have hpred : ((fun p : ℚ × ℚ =>
        decide (binOfAngle tmin tmax n p.2 = some j)) ∘
          Prod.map (fun x : ℚ => 2 * x) id) =
        fun p : ℚ × ℚ => decide (binOfAngle tmin tmax n p.2 = some j) := by
      funext p
      rcases p with ⟨a, b⟩
      simp [Prod.map]
    rw [hpred, List.map_map]
    have hfst : (Prod.fst ∘ Prod.map (fun x : ℚ => 2 * x) (id : ℚ → ℚ)) =
        fun p : ℚ × ℚ => 2 * p.1 := by
      funext p
      rcases p with ⟨a, b⟩
      simp [Prod.map]
    rw [hfst, sum_map_double]

/-- Witness for C9 at a one-pixel frame. -/
theorem radial_integrate_linear_witness :
    (radial_integrate ⟨[1, 1], [(3 : ℚ)].map (fun x => 2 * x)⟩
        ⟨[1, 1], [PyFloat.val 0]⟩ 0 1 1).1 =
      (radial_integrate ⟨[1, 1], [(3 : ℚ)]⟩ ⟨[1, 1], [PyFloat.val 0]⟩
        0 1 1).1 ∧
    (radial_integrate ⟨[1, 1], [(3 : ℚ)].map (fun x => 2 * x)⟩
        ⟨[1, 1], [PyFloat.val 0]⟩ 0 1 1).2 =
      (radial_integrate ⟨[1, 1], [(3 : ℚ)]⟩ ⟨[1, 1], [PyFloat.val 0]⟩
        0 1 1).2.map (fun s => 2 * s) :=
  radial_integrate_linear ⟨[1, 1], [(3 : ℚ)]⟩ ⟨[1, 1], [PyFloat.val 0]⟩
    0 1 (by norm_num) 1 (by norm_num)

/-! ## C10: no shape comparison in radial integration -/

/-- C10: radial integration never compares the shapes of its arguments:
for flattened buffers of equal element count it returns normally with two
length-`nbins` arrays, pairing intensities and angles by flattened index,
and the result does not depend on the shape tuples at all. -/
theorem radial_integrate_no_shape_check (s1 s2 s1b s2b : List ℤ)
    (d1 : List ℚ) (d2 : List PyFloat) (hlen : d1.length = d2.length)
    (tmin tmax : ℚ) (hlt : tmin < tmax) (n : ℕ) (hn : 1 ≤ n) :
    (radial_integrate ⟨s1, d1⟩ ⟨s2, d2⟩ tmin tmax n).1.length = n ∧
    (radial_integrate ⟨s1, d1⟩ ⟨s2, d2⟩ tmin tmax n).2.length = n ∧
    radial_integrate ⟨s1, d1⟩ ⟨s2, d2⟩ tmin tmax n =
      radial_integrate ⟨s1b, d1⟩ ⟨s2b, d2⟩ tmin tmax n := by
  refine ⟨?_, ?_, rfl⟩ <;> simp [radial_integrate]

/-- Witness for C10: a 2x3 image against a 3x2 angle map, six elements
each. -/
theorem radial_integrate_no_shape_check_witness :
    (radial_integrate ⟨[2, 3], [0, 0, 0, 0, 0, 0]⟩
        ⟨[3, 2], List.replicate 6 (PyFloat.val 0)⟩ 0 1 4).1.length = 4 ∧
    (radial_integrate ⟨[2, 3], [0, 0, 0, 0, 0, 0]⟩
        ⟨[3, 2], List.replicate 6 (PyFloat.val 0)⟩ 0 1 4).2.length = 4 ∧
    radial_integrate ⟨[2, 3], [0, 0, 0, 0, 0, 0]⟩
        ⟨[3, 2], List.replicate 6 (PyFloat.val 0)⟩ 0 1 4 =
      radial_integrate ⟨[1, 6], [0, 0, 0, 0, 0, 0]⟩
        ⟨[6, 1], List.replicate 6 (PyFloat.val 0)⟩ 0 1 4 :=
  radial_integrate_no_shape_check [2, 3] [3, 2] [1, 6] [6, 1]
    [0, 0, 0, 0, 0, 0] (List.replicate 6 (PyFloat.val 0)) (by simp)
    0 1 (by norm_num) 4 (by norm_num)

end Diffraxia
